import Mathlib

/-!
Verification development for the DNMFX core: spatial overlap detection
(`dnmfx/preprocess.py`), connected-component grouping (`dnmfx/groups.py`),
and the reconstruction/loss model (`dnmfx/loss.py`).

The repository's geometry is 2-dimensional in all of its uses (bounding
boxes are `funlib.geometry.Roi((x_b, y_b), (width, height))`); the embedding
fixes the dimension to 2 accordingly.  Coordinates are integers, as in
`funlib.geometry.Coordinate` (a tuple of ints).
-/

/-- Model of `funlib.geometry.Roi` in two dimensions: an axis-aligned box
given by an `offset` (its begin corner) and a `shape` (its extent per axis),
both integer pairs.  `end = offset + shape`. -/
structure Roi where
  offset : ℤ × ℤ
  shape : ℤ × ℤ
deriving DecidableEq, Repr

/-- Model of funlib's `Roi.end`: `offset + shape`. (`end` is a Lean keyword,
hence `endPt`.) -/
def Roi.endPt (r : Roi) : ℤ × ℤ := (r.offset.1 + r.shape.1, r.offset.2 + r.shape.2)

/-- Model of funlib's `Roi.center`: `offset + shape / 2`, where `Coordinate` holds
integers, so the division is integer division (floor, for the nonnegative
shapes in use). -/
def Roi.center (r : Roi) : ℤ × ℤ :=
  (r.offset.1 + r.shape.1 / 2, r.offset.2 + r.shape.2 / 2)

/-- Model of funlib's `Roi.intersects`: the boxes share a point, tested per axis on
the half-open intervals `[offset, offset + shape)`:
`a.begin < b.end` and `b.begin < a.end` on every axis. -/
def Roi.intersects (a b : Roi) : Bool :=
  decide (a.offset.1 < b.offset.1 + b.shape.1) &&
  decide (b.offset.1 < a.offset.1 + a.shape.1) &&
  decide (a.offset.2 < b.offset.2 + b.shape.2) &&
  decide (b.offset.2 < a.offset.2 + a.shape.2)

/-- Squared Euclidean distance between two integer points. -/
def distSq (p q : ℤ × ℤ) : ℤ := (p.1 - q.1) ^ 2 + (p.2 - q.2) ^ 2

/-- Model of `get_diagonal_length` in `preprocess.py`, which computes
`sqrt(sum((end - begin)**2))`; this is the radicand `sum((end - begin)**2)`,
kept exact (the square root is taken only inside `inQueryBall`). -/
def Roi.diagSq (r : Roi) : ℤ := r.shape.1 ^ 2 + r.shape.2 ^ 2

/-- Membership test of `scipy.spatial.KDTree.query_ball_point(center, r)`
with `r = sqrt rSq + 1`: the point is returned iff its Euclidean distance to
the query point is at most `r`, i.e. iff `sqrt dSq ≤ sqrt rSq + 1`.  Squaring
gives the exact integer test below: if `dSq ≤ rSq + 1` the inequality holds
(`2 * sqrt rSq ≥ 0`); otherwise it is equivalent to
`(dSq - rSq - 1)^2 ≤ 4 * rSq`.  The lemma `inQueryBall_iff_sqrt` proves this
characterization. -/
def inQueryBall (dSq rSq : ℤ) : Bool :=
  if dSq ≤ rSq + 1 then true else decide ((dSq - rSq - 1) ^ 2 ≤ 4 * rSq)

/-- Model of `preprocess.Component`: a bounding box, a dense index, and the list of
overlapping components.  The Python object stores references to the
overlapping `Component`s; the embedding stores their indices (the code
looks components up by index in the flat component list). -/
structure Component where
  bounding_box : Roi
  index : ℕ
  overlapping_components : List ℕ
deriving DecidableEq, Repr

/-- Model of `preprocess.construct_components`: one `Component` per bounding box, with
the zero-based position in the input list as its index and an empty overlap
list; no validation of the boxes is performed. -/
def construct_components (bbs : List Roi) : List Component :=
  (List.range bbs.length).map
    (fun i => ⟨bbs.getD i ⟨(0, 0), (0, 0)⟩, i, []⟩)

/-- Model of `preprocess.find_overlapping_components`: query the KD-tree of component
centers around `c`'s center with radius `diagonal(c) + 1`, drop `c` itself,
and keep the candidates whose bounding boxes intersect `c`'s.  Returns the
indices of the components kept. -/
def find_overlapping_components (c : Component) (comps : List Component) : List ℕ :=
  let close := comps.filter
    (fun d => inQueryBall (distSq d.bounding_box.center c.bounding_box.center)
      c.bounding_box.diagSq)
  (close.filter
    (fun d => decide (d.index ≠ c.index) &&
      d.bounding_box.intersects c.bounding_box)).map (fun d => d.index)

/-- Model of `preprocess.create_components`: build the components, compute every
component's overlap list against the full component list, and store it. -/
def create_components (bbs : List Roi) : List Component :=
  let cs := construct_components bbs
  cs.map (fun c => { c with overlapping_components := find_overlapping_components c cs })

/-- Justification that `inQueryBall` is exactly the KD-tree ball test
`sqrt dSq ≤ sqrt rSq + 1` used by `find_overlapping_components`. -/
lemma inQueryBall_iff_sqrt (d s : ℤ) (hs : 0 ≤ s) :
    inQueryBall d s = true ↔ Real.sqrt (d : ℝ) ≤ Real.sqrt (s : ℝ) + 1 := by
  have hs' : (0 : ℝ) ≤ (s : ℝ) := by exact_mod_cast hs
  have hy : (0 : ℝ) ≤ Real.sqrt (s : ℝ) + 1 := by positivity
  have hsq : Real.sqrt (s : ℝ) ^ 2 = (s : ℝ) := Real.sq_sqrt hs'
  rw [Real.sqrt_le_left hy]
  unfold inQueryBall
  split_ifs with h
  · simp only [true_iff]
    have hcast : (d : ℝ) ≤ (s : ℝ) + 1 := by exact_mod_cast h
    nlinarith [Real.sqrt_nonneg (s : ℝ)]
  · rw [decide_eq_true_eq]
    have hpos : (0 : ℝ) < (d : ℝ) - (s : ℝ) - 1 := by
      have : s + 1 < d := by omega
      have : ((s : ℝ)) + 1 < (d : ℝ) := by exact_mod_cast this
      linarith
    constructor
    · intro hle
      have hle' : ((d : ℝ) - s - 1) ^ 2 ≤ 4 * s := by exact_mod_cast hle
      nlinarith [Real.sqrt_nonneg (s : ℝ)]
    · intro hle
      have hle' : ((d : ℝ) - s - 1) ^ 2 ≤ 4 * s := by nlinarith
      exact_mod_cast hle'

/-- Squared distance is symmetric. -/
lemma distSq_comm (p q : ℤ × ℤ) : distSq p q = distSq q p := by
  simp only [distSq]; ring

/-- The intersection test is symmetric. -/
lemma Roi.intersects_comm (a b : Roi) : a.intersects b = b.intersects a := by
  simp only [Roi.intersects]
  rw [Bool.eq_iff_iff]
  simp only [Bool.and_eq_true, decide_eq_true_eq]
  tauto

/-- Capture bound for the KD-tree query: if two boxes of strictly positive
extent intersect and `b`'s diagonal is at most `a`'s, then the distance
between their (floored, integer) centers is at most `a`'s diagonal length,
so `b`'s center falls inside the ball of radius `diagonal(a) + 1` around
`a`'s center. -/
lemma centers_within_ball (a b : Roi)
    (ha1 : 0 < a.shape.1) (ha2 : 0 < a.shape.2)
    (hb1 : 0 < b.shape.1) (hb2 : 0 < b.shape.2)
    (hint : b.intersects a = true)
    (hd : b.diagSq ≤ a.diagSq) :
    distSq b.center a.center ≤ a.diagSq := by
  obtain ⟨⟨oa1, oa2⟩, sa1, sa2⟩ := a
  obtain ⟨⟨ob1, ob2⟩, sb1, sb2⟩ := b
  simp only [Roi.intersects, Bool.and_eq_true, decide_eq_true_eq] at hint
  obtain ⟨⟨⟨i1, i2⟩, i3⟩, i4⟩ := hint
  simp only [Roi.center, Roi.diagSq, distSq] at *
  -- per-axis center separation: |2 Δ| ≤ shape a + shape b
  have a1 : 2 * ((ob1 + sb1 / 2) - (oa1 + sa1 / 2)) ≤ sa1 + sb1 ∧
      -(sa1 + sb1) ≤ 2 * ((ob1 + sb1 / 2) - (oa1 + sa1 / 2)) := by omega
  have a2 : 2 * ((ob2 + sb2 / 2) - (oa2 + sa2 / 2)) ≤ sa2 + sb2 ∧
      -(sa2 + sb2) ≤ 2 * ((ob2 + sb2 / 2) - (oa2 + sa2 / 2)) := by omega
  obtain ⟨u1, v1⟩ := a1
  obtain ⟨u2, v2⟩ := a2
  set d1 := (ob1 + sb1 / 2) - (oa1 + sa1 / 2) with hd1
  set d2 := (ob2 + sb2 / 2) - (oa2 + sa2 / 2) with hd2
  have c1 : (2 * d1) ^ 2 ≤ (sa1 + sb1) ^ 2 := by nlinarith
  have c2 : (2 * d2) ^ 2 ≤ (sa2 + sb2) ^ 2 := by nlinarith
  have cauchy : (sa1 * sb1 + sa2 * sb2) ^ 2 ≤
      (sa1 ^ 2 + sa2 ^ 2) * (sb1 ^ 2 + sb2 ^ 2) := by
    nlinarith [sq_nonneg (sa1 * sb2 - sa2 * sb1)]
  have hab : 0 ≤ sa1 * sb1 + sa2 * sb2 := by positivity
  have hcross : sa1 * sb1 + sa2 * sb2 ≤ sa1 ^ 2 + sa2 ^ 2 := by
    nlinarith [sq_nonneg (sa1 ^ 2 + sa2 ^ 2)]
  nlinarith

/-- Membership in the overlap list computed by `find_overlapping_components`:
an index is returned iff it belongs to a listed component that passes the
KD-tree ball test, is not the queried component itself, and truly
intersects it. -/
lemma mem_find_overlapping_iff (c : Component) (cs : List Component) (k : ℕ) :
    k ∈ find_overlapping_components c cs ↔
      ∃ d ∈ cs, d.index = k ∧
        inQueryBall (distSq d.bounding_box.center c.bounding_box.center)
          c.bounding_box.diagSq = true ∧
        d.index ≠ c.index ∧
        d.bounding_box.intersects c.bounding_box = true := by
  simp only [find_overlapping_components, List.mem_map, List.mem_filter,
    Bool.and_eq_true, decide_eq_true_eq]
  constructor
  · rintro ⟨d, ⟨⟨hd, hball⟩, hne, hint⟩, rfl⟩
    exact ⟨d, hd, rfl, hball, hne, hint⟩
  · rintro ⟨d, hd, rfl, hball, hne, hint⟩
    exact ⟨d, ⟨⟨hd, hball⟩, hne, hint⟩, rfl⟩

/-- The components built by `construct_components` are exactly the input
boxes paired with their positions. -/
lemma mem_construct_components_iff (bbs : List Roi) (d : Component) :
    d ∈ construct_components bbs ↔
      ∃ t, t < bbs.length ∧ (⟨bbs.getD t ⟨(0, 0), (0, 0)⟩, t, []⟩ : Component) = d := by
  simp [construct_components]

/-- The components returned by `create_components` are the constructed ones
with their overlap lists filled in. -/
lemma mem_create_components_iff (bbs : List Roi) (c : Component) :
    c ∈ create_components bbs ↔
      ∃ i, i < bbs.length ∧
        c = ⟨bbs.getD i ⟨(0, 0), (0, 0)⟩, i,
          find_overlapping_components ⟨bbs.getD i ⟨(0, 0), (0, 0)⟩, i, []⟩
            (construct_components bbs)⟩ := by
  simp only [create_components, List.mem_map, mem_construct_components_iff]
  constructor
  · rintro ⟨c0, ⟨i, hi, rfl⟩, rfl⟩
    exact ⟨i, hi, rfl⟩
  · rintro ⟨i, hi, rfl⟩
    exact ⟨⟨bbs.getD i ⟨(0, 0), (0, 0)⟩, i, []⟩, ⟨i, hi, rfl⟩, rfl⟩

/-- C1, counterexample: two sources with strictly positive-volume bounding
boxes `[0,2)×[0,2)` and `[0,100)×[0,100)` intersect (the first is contained
in the second), yet the overlap list computed for the first source is empty:
the KD-tree query around the small box's center with radius
`diagonal + 1 = √8 + 1` does not reach the large box's center `(50, 50)`,
so `find_overlapping_components` misses this possibly-intersecting
neighbor whose box is larger. -/
theorem overlap_detection_misses_larger_neighbor :
    Roi.intersects ⟨(0, 0), (2, 2)⟩ ⟨(0, 0), (100, 100)⟩ = true ∧
    create_components [⟨(0, 0), (2, 2)⟩, ⟨(0, 0), (100, 100)⟩] =
      [⟨⟨(0, 0), (2, 2)⟩, 0, []⟩, ⟨⟨(0, 0), (100, 100)⟩, 1, [0]⟩] := by decide

/-- C1, amended: `find_overlapping_components c` returns every listed other
source that intersects `c` and whose bounding-box diagonal is at most `c`'s
(in particular every equal-or-smaller intersecting neighbor): for such a
neighbor the center distance is at most `diagonal(c)`, hence well within the
query radius `diagonal(c) + 1`.  Neighbors with larger boxes may be missed
(see `overlap_detection_misses_larger_neighbor`). -/
theorem find_overlapping_captures_no_larger_neighbors
    (c d : Component) (cs : List Component)
    (hmem : d ∈ cs)
    (hc1 : 0 < c.bounding_box.shape.1) (hc2 : 0 < c.bounding_box.shape.2)
    (hd1 : 0 < d.bounding_box.shape.1) (hd2 : 0 < d.bounding_box.shape.2)
    (hsize : d.bounding_box.diagSq ≤ c.bounding_box.diagSq)
    (hne : d.index ≠ c.index)
    (hint : d.bounding_box.intersects c.bounding_box = true) :
    d.index ∈ find_overlapping_components c cs := by
  rw [mem_find_overlapping_iff]
  refine ⟨d, hmem, rfl, ?_, hne, hint⟩
  have hball := centers_within_ball c.bounding_box d.bounding_box hc1 hc2 hd1 hd2 hint hsize
  unfold inQueryBall
  rw [if_pos (by omega)]

/-- Witness for `find_overlapping_captures_no_larger_neighbors` at two
concrete equal-size overlapping boxes. -/
theorem find_overlapping_captures_no_larger_neighbors_witness :
    (1 : ℕ) ∈ find_overlapping_components ⟨⟨(0, 0), (2, 2)⟩, 0, []⟩
      [⟨⟨(0, 0), (2, 2)⟩, 0, []⟩, ⟨⟨(1, 1), (2, 2)⟩, 1, []⟩] :=
  find_overlapping_captures_no_larger_neighbors
    ⟨⟨(0, 0), (2, 2)⟩, 0, []⟩ ⟨⟨(1, 1), (2, 2)⟩, 1, []⟩ _
    (by decide) (by decide) (by decide) (by decide) (by decide)
    (by decide) (by decide) (by decide)

/-- C2, counterexample: on boxes `[0,2)×[0,2)` and `[0,100)×[0,100)` (which
intersect), the computed overlap lists are `[[], [0]]`: source 0 appears in
the overlap list of source 1, but source 1 does not appear in the overlap
list of source 0 — the relation produced by `create_components` is not
symmetric. -/
theorem overlaps_symmetry_violated :
    Roi.intersects ⟨(0, 0), (2, 2)⟩ ⟨(0, 0), (100, 100)⟩ = true ∧
    (create_components [⟨(0, 0), (2, 2)⟩, ⟨(0, 0), (100, 100)⟩]).map
      (fun c => c.overlapping_components) = [[], [0]] := by decide

/-- C2, amended: no source ever appears in its own overlap list
(irreflexivity, unconditional), and for two sources of the same dataset
whose bounding boxes have equal diagonal length the overlap relation is
symmetric (both directions apply the same ball test and the same symmetric
intersection test).  Symmetry can fail between boxes of different diagonal
(see `overlaps_symmetry_violated`). -/
theorem overlaps_irrefl_and_symm_of_equal_diag
    (bbs : List Roi) (c c' : Component)
    (hc : c ∈ create_components bbs) (hc' : c' ∈ create_components bbs)
    (hdiag : c.bounding_box.diagSq = c'.bounding_box.diagSq) :
    (c'.index ∈ c.overlapping_components ↔ c.index ∈ c'.overlapping_components) ∧
    c.index ∉ c.overlapping_components := by
  rw [mem_create_components_iff] at hc hc'
  obtain ⟨i, hi, rfl⟩ := hc
  obtain ⟨j, hj, rfl⟩ := hc'
  simp only at hdiag ⊢
  constructor
  · rw [mem_find_overlapping_iff, mem_find_overlapping_iff]
    constructor
    · rintro ⟨d, hd, hdi, hball, hne, hint⟩
      rw [mem_construct_components_iff] at hd
      obtain ⟨t, ht, rfl⟩ := hd
      simp only at hdi hball hne hint
      subst hdi
      refine ⟨⟨bbs.getD i ⟨(0, 0), (0, 0)⟩, i, []⟩, ?_, rfl, ?_, ?_, ?_⟩
      · rw [mem_construct_components_iff]; exact ⟨i, hi, rfl⟩
      · rw [distSq_comm, ← hdiag]; exact hball
      · simp only; omega
      · rw [Roi.intersects_comm]; exact hint
    · rintro ⟨d, hd, hdi, hball, hne, hint⟩
      rw [mem_construct_components_iff] at hd
      obtain ⟨t, ht, rfl⟩ := hd
      simp only at hdi hball hne hint
      subst hdi
      refine ⟨⟨bbs.getD j ⟨(0, 0), (0, 0)⟩, j, []⟩, ?_, rfl, ?_, ?_, ?_⟩
      · rw [mem_construct_components_iff]; exact ⟨j, hj, rfl⟩
      · rw [distSq_comm, hdiag]; exact hball
      · simp only; omega
      · rw [Roi.intersects_comm]; exact hint
  · rw [mem_find_overlapping_iff]
    rintro ⟨d, _, hdi, _, hne, _⟩
    exact hne hdi

/-- Witness for `overlaps_irrefl_and_symm_of_equal_diag` at two concrete
equal-size overlapping boxes. -/
theorem overlaps_irrefl_and_symm_of_equal_diag_witness :
    ((1 : ℕ) ∈ (⟨⟨(0, 0), (2, 2)⟩, 0,
        find_overlapping_components ⟨⟨(0, 0), (2, 2)⟩, 0, []⟩
          (construct_components [⟨(0, 0), (2, 2)⟩, ⟨(1, 1), (2, 2)⟩])⟩ :
        Component).overlapping_components ↔
      (0 : ℕ) ∈ (⟨⟨(1, 1), (2, 2)⟩, 1,
        find_overlapping_components ⟨⟨(1, 1), (2, 2)⟩, 1, []⟩
          (construct_components [⟨(0, 0), (2, 2)⟩, ⟨(1, 1), (2, 2)⟩])⟩ :
        Component).overlapping_components) ∧
    (0 : ℕ) ∉ (⟨⟨(0, 0), (2, 2)⟩, 0,
        find_overlapping_components ⟨⟨(0, 0), (2, 2)⟩, 0, []⟩
          (construct_components [⟨(0, 0), (2, 2)⟩, ⟨(1, 1), (2, 2)⟩])⟩ :
        Component).overlapping_components :=
  overlaps_irrefl_and_symm_of_equal_diag [⟨(0, 0), (2, 2)⟩, ⟨(1, 1), (2, 2)⟩]
    ⟨⟨(0, 0), (2, 2)⟩, 0,
      find_overlapping_components ⟨⟨(0, 0), (2, 2)⟩, 0, []⟩
        (construct_components [⟨(0, 0), (2, 2)⟩, ⟨(1, 1), (2, 2)⟩])⟩
    ⟨⟨(1, 1), (2, 2)⟩, 1,
      find_overlapping_components ⟨⟨(1, 1), (2, 2)⟩, 1, []⟩
        (construct_components [⟨(0, 0), (2, 2)⟩, ⟨(1, 1), (2, 2)⟩])⟩
    (by decide) (by decide) (by decide)

/-!
## Grouping (`dnmfx/groups.py`)

`get_groups` builds an undirected graph whose nodes are the dataset's
component descriptions (indices `0, …, n-1`) and whose edges connect each
component to every member of its overlap list, then takes connected
components (`networkx.connected_components`, which discovers components in
node-insertion order, i.e. increasing index, and yields each component's
node set).  Groups are modelled as `Finset ℕ` of indices; the overlap
structure is the input `ov : ℕ → List ℕ`.
-/

/-- Symmetrized adjacency: `groups.py` adds the undirected edge `{i, j}` for
every `j ∈ overlaps(i)`. -/
def adjOf (ov : ℕ → List ℕ) (i j : ℕ) : Bool :=
  decide (j ∈ ov i) || decide (i ∈ ov j)

/-- One expansion step of connected-component discovery over nodes
`0, …, n-1`: add every in-range node adjacent to the current set. -/
def nbrStep (adj : ℕ → ℕ → Bool) (n : ℕ) (S : Finset ℕ) : Finset ℕ :=
  S ∪ (Finset.range n).filter (fun j => ∃ k ∈ S, adj k j = true)

/-- The connected component of node `i`: saturate `nbrStep` (`n + 1`
iterations always reach the fixed point, see `compClass_fixed`). -/
def compClass (adj : ℕ → ℕ → Bool) (n : ℕ) (i : ℕ) : Finset ℕ :=
  (nbrStep adj n)^[n + 1] {i}

/-- The group list of `get_groups`: walk the sources in index order and,
whenever one is not yet in a discovered group, append its connected
component. -/
def buildGroups (adj : ℕ → ℕ → Bool) (n : ℕ) :
    List ℕ → List (Finset ℕ) → List (Finset ℕ)
  | [], acc => acc
  | i :: rest, acc =>
    if acc.any (fun g => decide (i ∈ g)) then buildGroups adj n rest acc
    else buildGroups adj n rest (acc ++ [compClass adj n i])

/-- The `groups` return value of `get_groups`. -/
def getGroupsList (ov : ℕ → List ℕ) (n : ℕ) : List (Finset ℕ) :=
  buildGroups (adjOf ov) n (List.range n) []

/-- The `index_to_group` return value of `get_groups`: the id (position) of
the group containing the source's index. -/
def indexToGroup (ov : ℕ → List ℕ) (n : ℕ) (i : ℕ) : ℕ :=
  (getGroupsList ov n).findIdx (fun g => decide (i ∈ g))

lemma adjOf_comm (ov : ℕ → List ℕ) (a b : ℕ) : adjOf ov a b = adjOf ov b a := by
  simp [adjOf, Bool.or_comm]

lemma subset_nbrStep (adj : ℕ → ℕ → Bool) (n : ℕ) (S : Finset ℕ) :
    S ⊆ nbrStep adj n S :=
  Finset.subset_union_left

lemma nbrStep_mono (adj : ℕ → ℕ → Bool) (n : ℕ) {S T : Finset ℕ} (h : S ⊆ T) :
    nbrStep adj n S ⊆ nbrStep adj n T := by
  intro x hx
  simp only [nbrStep, Finset.mem_union, Finset.mem_filter] at hx ⊢
  rcases hx with hx | ⟨hr, k, hk, hadj⟩
  · exact Or.inl (h hx)
  · exact Or.inr ⟨hr, k, h hk, hadj⟩

lemma iterate_nbrStep_subset (adj : ℕ → ℕ → Bool) (n i : ℕ) :
    ∀ k, (nbrStep adj n)^[k] {i} ⊆ insert i (Finset.range n) := by
  intro k
  induction k with
  | zero => simp
  | succ k ih =>
    rw [Function.iterate_succ_apply']
    intro x hx
    simp only [nbrStep, Finset.mem_union, Finset.mem_filter] at hx
    rcases hx with hx | ⟨hr, -⟩
    · exact ih hx
    · exact Finset.mem_insert_of_mem hr

lemma singleton_subset_iterate (adj : ℕ → ℕ → Bool) (n i : ℕ) :
    ∀ k, ({i} : Finset ℕ) ⊆ (nbrStep adj n)^[k] {i} := by
  intro k
  induction k with
  | zero => simp
  | succ k ih =>
    rw [Function.iterate_succ_apply']
    exact ih.trans (subset_nbrStep adj n _)

lemma mem_compClass_self (adj : ℕ → ℕ → Bool) (n i : ℕ) :
    i ∈ compClass adj n i :=
  singleton_subset_iterate adj n i (n + 1) (Finset.mem_singleton_self i)

/-- Iterating `nbrStep` `n + 1` times starting from a singleton reach a fixed
point: the iterates grow inside a set of at most `n + 1` elements, so not
all of the first `n + 2` inclusions can be strict. -/
lemma compClass_fixed (adj : ℕ → ℕ → Bool) (n i : ℕ) :
    nbrStep adj n (compClass adj n i) = compClass adj n i := by
  by_contra hne
  have hstrict : ∀ k, k ≤ n + 1 →
      (nbrStep adj n)^[k] {i} ≠ (nbrStep adj n)^[k + 1] {i} := by
    intro k hk heq
    have hstab : ∀ m, (nbrStep adj n)^[k + m] {i} = (nbrStep adj n)^[k] {i} := by
      intro m
      induction m with
      | zero => rfl
      | succ m ih =>
        have hkm : k + (m + 1) = (k + m) + 1 := by omega
        rw [hkm, Function.iterate_succ_apply', ih]
        exact (Function.iterate_succ_apply' (nbrStep adj n) k {i}).symm.trans heq.symm
    apply hne
    have h1 : (nbrStep adj n)^[n + 1] {i} = (nbrStep adj n)^[k] {i} := by
      have := hstab (n + 1 - k)
      rwa [show k + (n + 1 - k) = n + 1 by omega] at this
    have h2 : (nbrStep adj n)^[n + 2] {i} = (nbrStep adj n)^[k] {i} := by
      have := hstab (n + 2 - k)
      rwa [show k + (n + 2 - k) = n + 2 by omega] at this
    show nbrStep adj n ((nbrStep adj n)^[n + 1] {i}) = (nbrStep adj n)^[n + 1] {i}
    exact (Function.iterate_succ_apply' (nbrStep adj n) (n + 1) {i}).symm.trans
      (h2.trans h1.symm)
  have hcard : ∀ k, k ≤ n + 2 → k + 1 ≤ ((nbrStep adj n)^[k] {i}).card := by
    intro k
    induction k with
    | zero => intro _; simp
    | succ k ih =>
      intro hk
      have hsub : (nbrStep adj n)^[k] {i} ⊆ (nbrStep adj n)^[k + 1] {i} := by
        rw [Function.iterate_succ_apply']
        exact subset_nbrStep adj n _
      have hne' : (nbrStep adj n)^[k] {i} ≠ (nbrStep adj n)^[k + 1] {i} :=
        hstrict k (by omega)
      have hlt := Finset.card_lt_card (HasSubset.Subset.ssubset_of_ne hsub hne')
      have := ih (by omega)
      omega
  have hbound := Finset.card_le_card (iterate_nbrStep_subset adj n i (n + 2))
  have hins : (insert i (Finset.range n)).card ≤ n + 1 := by
    have := Finset.card_insert_le i (Finset.range n)
    simpa using this
  have := hcard (n + 2) le_rfl
  omega

lemma iterate_subset_of_closed (adj : ℕ → ℕ → Bool) (n : ℕ) {U : Finset ℕ}
    (hU : nbrStep adj n U ⊆ U) {X : Finset ℕ} (hX : X ⊆ U) :
    ∀ k, (nbrStep adj n)^[k] X ⊆ U := by
  intro k
  induction k with
  | zero => exact hX
  | succ k ih =>
    rw [Function.iterate_succ_apply']
    exact (nbrStep_mono adj n ih).trans hU

lemma compClass_closed_adj (adj : ℕ → ℕ → Bool) (n i : ℕ) {x y : ℕ}
    (hx : x ∈ compClass adj n i) (hadj : adj x y = true) (hy : y < n) :
    y ∈ compClass adj n i := by
  rw [← compClass_fixed adj n i]
  simp only [nbrStep, Finset.mem_union, Finset.mem_filter, Finset.mem_range]
  exact Or.inr ⟨hy, x, hx, hadj⟩

lemma compClass_subset_of_mem (adj : ℕ → ℕ → Bool) (n : ℕ) {i j : ℕ}
    (hj : j ∈ compClass adj n i) :
    compClass adj n j ⊆ compClass adj n i :=
  iterate_subset_of_closed adj n (le_of_eq (compClass_fixed adj n i))
    (Finset.singleton_subset_iff.mpr hj) (n + 1)

lemma mem_compClass_symm (adj : ℕ → ℕ → Bool) (n : ℕ)
    (hsym : ∀ a b, adj a b = adj b a) {i j : ℕ} (hi : i < n)
    (hj : j ∈ compClass adj n i) :
    i ∈ compClass adj n j := by
  suffices h : ∀ k, ∀ x ∈ (nbrStep adj n)^[k] {i}, i ∈ compClass adj n x from
    h (n + 1) j hj
  intro k
  induction k with
  | zero =>
    intro x hx
    rw [Function.iterate_zero_apply, Finset.mem_singleton] at hx
    subst hx
    exact mem_compClass_self adj n x
  | succ k ih =>
    intro x hx
    rw [Function.iterate_succ_apply'] at hx
    simp only [nbrStep, Finset.mem_union, Finset.mem_filter, Finset.mem_range] at hx
    rcases hx with hx | ⟨hxn, y, hy, hyx⟩
    · exact ih x hx
    · have hxy : adj x y = true := by rw [hsym]; exact hyx
      have hymem := iterate_nbrStep_subset adj n i k hy
      rw [Finset.mem_insert, Finset.mem_range] at hymem
      rcases hymem with rfl | hyn
      · exact compClass_closed_adj adj n x (mem_compClass_self adj n x) hxy hi
      · have hyinx : y ∈ compClass adj n x :=
          compClass_closed_adj adj n x (mem_compClass_self adj n x) hxy hyn
        exact compClass_subset_of_mem adj n hyinx (ih y hy)

lemma compClass_eq_of_mem (adj : ℕ → ℕ → Bool) (n : ℕ)
    (hsym : ∀ a b, adj a b = adj b a) {i j : ℕ} (hi : i < n)
    (hj : j ∈ compClass adj n i) :
    compClass adj n j = compClass adj n i :=
  subset_antisymm (compClass_subset_of_mem adj n hj)
    (compClass_subset_of_mem adj n (mem_compClass_symm adj n hsym hi hj))

/-- Groups already discovered persist through the rest of the walk. -/
lemma mem_buildGroups_of_mem_acc (adj : ℕ → ℕ → Bool) (n : ℕ) :
    ∀ (pend : List ℕ) (acc : List (Finset ℕ)) (g : Finset ℕ),
      g ∈ acc → g ∈ buildGroups adj n pend acc := by
  intro pend
  induction pend with
  | nil => intro acc g hg; exact hg
  | cons i rest ih =>
    intro acc g hg
    simp only [buildGroups]
    split_ifs
    · exact ih acc g hg
    · exact ih (acc ++ [compClass adj n i]) g (List.mem_append_left _ hg)

/-- Every walked source index ends up in some discovered group. -/
lemma buildGroups_covers (adj : ℕ → ℕ → Bool) (n : ℕ) :
    ∀ (pend : List ℕ) (acc : List (Finset ℕ)) (i : ℕ),
      i ∈ pend → ∃ g ∈ buildGroups adj n pend acc, i ∈ g := by
  intro pend
  induction pend with
  | nil => intro acc i hi; simp at hi
  | cons p rest ih =>
    intro acc i hi
    rcases List.mem_cons.mp hi with rfl | hmem
    · simp only [buildGroups]
      split_ifs with hguard
      · simp only [List.any_eq_true, decide_eq_true_eq] at hguard
        obtain ⟨g, hg, hig⟩ := hguard
        exact ⟨g, mem_buildGroups_of_mem_acc adj n rest acc g hg, hig⟩
      · refine ⟨compClass adj n i, ?_, mem_compClass_self adj n i⟩
        exact mem_buildGroups_of_mem_acc adj n rest _ _
          (List.mem_append_right _ (List.mem_singleton_self _))
    · simp only [buildGroups]
      split_ifs
      · exact ih acc i hmem
      · exact ih _ i hmem

/-- Invariant of the group-discovery walk: every discovered group is the
connected component of one of its members (with the member below `n`), and
the discovered groups are pairwise disjoint. -/
lemma buildGroups_invariant (adj : ℕ → ℕ → Bool) (n : ℕ)
    (hsym : ∀ a b, adj a b = adj b a) :
    ∀ (pend : List ℕ) (acc : List (Finset ℕ)),
      (∀ i ∈ pend, i < n) →
      (∀ g ∈ acc, ∃ x, x < n ∧ g = compClass adj n x ∧ x ∈ g) →
      List.Pairwise (fun g g' => Disjoint g g') acc →
      (∀ g ∈ buildGroups adj n pend acc,
        ∃ x, x < n ∧ g = compClass adj n x ∧ x ∈ g) ∧
      List.Pairwise (fun g g' => Disjoint g g') (buildGroups adj n pend acc) := by
  intro pend
  induction pend with
  | nil => intro acc _ h1 h2; exact ⟨h1, h2⟩
  | cons p rest ih =>
    intro acc hpend h1 h2
    have hp : p < n := hpend p (List.mem_cons_self p rest)
    have hrest : ∀ i ∈ rest, i < n := fun i hi => hpend i (List.mem_cons_of_mem p hi)
    simp only [buildGroups]
    split_ifs with hguard
    · exact ih acc hrest h1 h2
    · -- p is in no discovered group; append its component
      simp only [List.any_eq_true, decide_eq_true_eq, not_exists, not_and] at hguard
      have hnotin : ∀ g ∈ acc, p ∉ g := fun g hg => hguard g hg
      apply ih (acc ++ [compClass adj n p]) hrest
      · intro g hg
        rcases List.mem_append.mp hg with hg | hg
        · exact h1 g hg
        · rw [List.mem_singleton] at hg
          subst hg
          exact ⟨p, hp, rfl, mem_compClass_self adj n p⟩
      · rw [List.pairwise_append]
        refine ⟨h2, List.pairwise_singleton _ _, ?_⟩
        intro g hg g' hg'
        rw [List.mem_singleton] at hg'
        subst hg'
        obtain ⟨x, hx, rfl, hxg⟩ := h1 g hg
        rw [Finset.disjoint_left]
        intro z hz hz'
        have hzn : z < n := by
          have := iterate_nbrStep_subset adj n x (n + 1) hz
          rw [Finset.mem_insert, Finset.mem_range] at this
          rcases this with rfl | h
          · exact hx
          · exact h
        have e1 : compClass adj n z = compClass adj n x :=
          compClass_eq_of_mem adj n hsym hx hz
        have e2 : compClass adj n z = compClass adj n p :=
          compClass_eq_of_mem adj n hsym hp hz'
        have : p ∈ compClass adj n x := by
          rw [← e1, e2]
          exact mem_compClass_self adj n p
        exact hnotin _ hg this

/-- A pairwise-disjoint list of sets counts exactly one set containing any
element that some member contains. -/
lemma countP_eq_one_of_pairwise_disjoint {L : List (Finset ℕ)} {i : ℕ}
    (hpair : List.Pairwise (fun g g' => Disjoint g g') L)
    (hex : ∃ g ∈ L, i ∈ g) :
    L.countP (fun g => decide (i ∈ g)) = 1 := by
  induction L with
  | nil => simp at hex
  | cons g rest ih =>
    rcases List.pairwise_cons.mp hpair with ⟨hdis, hrest⟩
    rw [List.countP_cons]
    by_cases hig : i ∈ g
    · have hzero : rest.countP (fun g => decide (i ∈ g)) = 0 := by
        rw [List.countP_eq_zero]
        intro g' hg'
        simp only [decide_eq_true_eq]
        exact fun hig' => (Finset.disjoint_left.mp (hdis g' hg') hig) hig'
      simp [hzero, hig]
    · rcases hex with ⟨g', hg', hig'⟩
      rcases List.mem_cons.mp hg' with rfl | hmem
      · exact absurd hig' hig
      · have := ih hrest ⟨g', hmem, hig'⟩
        simp [this, hig]

/-- The `findIdx` of a satisfied predicate is a valid position whose entry
satisfies it. -/
lemma findIdx_mem_getD {L : List (Finset ℕ)} {i : ℕ} (hex : ∃ g ∈ L, i ∈ g) :
    L.findIdx (fun g => decide (i ∈ g)) < L.length ∧
    i ∈ L.getD (L.findIdx (fun g => decide (i ∈ g))) ∅ := by
  induction L with
  | nil => simp at hex
  | cons g rest ih =>
    by_cases hig : i ∈ g
    · simp [List.findIdx_cons, hig]
    · rcases hex with ⟨g', hg', hig'⟩
      rcases List.mem_cons.mp hg' with rfl | hmem
      · exact absurd hig' hig
      · obtain ⟨ha, hb⟩ := ih ⟨g', hmem, hig'⟩
        simp only [List.findIdx_cons, hig, decide_False, cond_false]
        refine ⟨?_, ?_⟩
        · rw [List.length_cons]; omega
        · rw [List.getD_cons_succ]; exact hb

/-- C4: for a dataset of `n` sources with overlap lists referencing dataset
sources, `get_groups` partitions the index set `[0, n)`: every group's
members are valid indices, every index is contained in exactly one group of
the returned list (a group of size 1 arises for isolated sources), and
`index_to_group` maps the index to the position of that unique group. -/
theorem get_groups_partition (ov : ℕ → List ℕ) (n : ℕ)
    (_hvalid : ∀ i, i < n → ∀ j ∈ ov i, j < n) (i : ℕ) (hi : i < n) :
    (∀ g ∈ getGroupsList ov n, ∀ j ∈ g, j < n) ∧
    (getGroupsList ov n).countP (fun g => decide (i ∈ g)) = 1 ∧
    indexToGroup ov n i < (getGroupsList ov n).length ∧
    i ∈ (getGroupsList ov n).getD (indexToGroup ov n i) ∅ := by
  have hsym := adjOf_comm ov
  obtain ⟨hclasses, hdisj⟩ := buildGroups_invariant (adjOf ov) n hsym (List.range n) []
    (fun j hj => List.mem_range.mp hj) (by simp) (by simp)
  have hcov : ∀ j, j < n → ∃ g ∈ getGroupsList ov n, j ∈ g := fun j hj =>
    buildGroups_covers (adjOf ov) n (List.range n) [] j (List.mem_range.mpr hj)
  refine ⟨?_, ?_, ?_⟩
  · intro g hg j hjg
    obtain ⟨x, hx, rfl, -⟩ := hclasses g hg
    have := iterate_nbrStep_subset (adjOf ov) n x (n + 1) hjg
    rw [Finset.mem_insert, Finset.mem_range] at this
    rcases this with rfl | h
    · exact hx
    · exact h
  · exact countP_eq_one_of_pairwise_disjoint hdisj (hcov i hi)
  · exact findIdx_mem_getD (hcov i hi)

/-- Witness for `get_groups_partition` on the spec's concrete scenario
(sources 0 and 1 overlap, source 2 is isolated). -/
theorem get_groups_partition_witness :
    (getGroupsList (fun i => if i = 0 then [1] else if i = 1 then [0] else []) 3).countP
      (fun g => decide ((1 : ℕ) ∈ g)) = 1 ∧
    (1 : ℕ) ∈ (getGroupsList
        (fun i => if i = 0 then [1] else if i = 1 then [0] else []) 3).getD
      (indexToGroup (fun i => if i = 0 then [1] else if i = 1 then [0] else []) 3 1) ∅ :=
  ⟨(get_groups_partition (fun i => if i = 0 then [1] else if i = 1 then [0] else []) 3
      (by decide) 1 (by decide)).2.1,
   (get_groups_partition (fun i => if i = 0 then [1] else if i = 1 then [0] else []) 3
      (by decide) 1 (by decide)).2.2.2⟩

/-- C9: grouping is deterministic given the input: the group assigned to
each source index is exactly the connected component of that index under
the symmetrized overlap relation — a set canonically determined by the
overlap structure alone (independent of traversal order or any internal id
numbering).  With the embedding being a pure function of the input, two
runs of `get_groups` on the same input therefore produce the same group
contents. -/
theorem get_groups_deterministic (ov : ℕ → List ℕ) (n : ℕ)
    (_hvalid : ∀ i, i < n → ∀ j ∈ ov i, j < n) (i : ℕ) (hi : i < n) :
    (getGroupsList ov n).getD (indexToGroup ov n i) ∅ = compClass (adjOf ov) n i := by
  have hsym := adjOf_comm ov
  obtain ⟨hclasses, hdisj⟩ := buildGroups_invariant (adjOf ov) n hsym (List.range n) []
    (fun j hj => List.mem_range.mp hj) (by simp) (by simp)
  have hcov := buildGroups_covers (adjOf ov) n (List.range n) [] i (List.mem_range.mpr hi)
  obtain ⟨hlt, hmem⟩ := findIdx_mem_getD hcov
  simp only [getGroupsList, indexToGroup]
  have hgmem : (buildGroups (adjOf ov) n (List.range n) []).getD
      (List.findIdx (fun g => decide (i ∈ g)) (buildGroups (adjOf ov) n (List.range n) [])) ∅ ∈
      buildGroups (adjOf ov) n (List.range n) [] := by
    rw [List.getD_eq_getElem _ _ hlt]
    exact List.getElem_mem _
  obtain ⟨x, hx, hgeq, -⟩ := hclasses _ hgmem
  rw [hgeq] at hmem ⊢
  exact (compClass_eq_of_mem (adjOf ov) n hsym hx hmem).symm

/-- Witness for `get_groups_deterministic` on the spec's concrete
scenario. -/
theorem get_groups_deterministic_witness :
    (getGroupsList (fun i => if i = 0 then [1] else if i = 1 then [0] else []) 3).getD
      (indexToGroup (fun i => if i = 0 then [1] else if i = 1 then [0] else []) 3 0) ∅ =
    compClass (adjOf (fun i => if i = 0 then [1] else if i = 1 then [0] else [])) 3 0 :=
  get_groups_deterministic (fun i => if i = 0 then [1] else if i = 1 then [0] else []) 3
    (by decide) 0 (by decide)

/-!
## Reconstruction and loss (`dnmfx/loss.py`)

Arrays of logits are modelled as a shape together with a total entry
function; only 2-D accesses `entry row col` occur.  Patches indexed by a
frame slot and a 2-D local position are plain functions.  The squashing
function is a parameter `σ` wherever the structure of the computation does
not depend on it.
-/

/-- Modelled from the spec: `utils.sigmoid` (the module `dnmfx/utils.py` is
not under `src/`).  The spec requires only "a smooth monotonic map from
unbounded values to the open interval (0,1)"; this executable rational
analogue `x ↦ 1/2 + x / (2(1+|x|))` is strictly monotone with range (0,1)
and is used to instantiate the squashing parameter in concrete
evaluations. -/
def ratSigmoid (x : ℚ) : ℚ := 1 / 2 + x / (2 * (1 + |x|))

/-- A logits array: its shape (as reported by `.shape`) and its entries,
accessed 2-dimensionally as `entry row col`. -/
structure NDArr where
  shape : List ℕ
  entry : ℕ → ℕ → ℚ

/-- Modelled from the spec: `component_description.ComponentDescription`
(module not under `src/`): the index, bounding box, and overlapping
components of a source; each overlapping component carries its index and
bounding box, which is all `get_x_hat` reads of it. -/
structure ComponentDescription where
  index : ℕ
  bounding_box : Roi
  overlapping_components : List (ℕ × Roi)

/-- Row-major flattened index of local position `p` within a box of shape
`s`, as produced by `reshape(-1, *s)` indexing. -/
def flatIdx (s : ℤ × ℤ) (p : ℤ × ℤ) : ℕ := (p.1 * s.2 + p.2).toNat

/-- Model of `loss.get_x_hat`: the reconstruction of component `i = cd.index` at
frame slot `f` (the `f`-th entry of `frames`) and local position `p` inside
`bb_i = cd.bounding_box`.  The own contribution is
`σ(W[i, frames[f]]) * σ(H[i, flat p]) + σ(B[i, flat p])`.  For each listed
overlapping component `(j, bb_j)` whose box intersection with `bb_i`
contains the absolute position `bb_i.offset + p`, the code adds
`σ(W[j, frames[f]]) * σ(H[j, k]) + σ(B[j, k])`, where — faithfully to the
line `H_logits = H_logits.reshape(-1, *bb_i.shape)` inside the loop (and
likewise for `B_logits`) — the flat index `k` is computed with the TARGET
box's shape `bb_i.shape` applied to the neighbor-local coordinates
`q - bb_j.offset`.  Index accesses are modelled as total functions (JAX's
clipping of out-of-range slices is not modelled); an empty intersection
contributes nothing here, but see C5 for the caveat about
`funlib.geometry`'s empty-ROI representation. -/
def get_x_hat (σ : ℚ → ℚ) (H W B : NDArr) (cd : ComponentDescription)
    (frames : List ℕ) (f : ℕ) (p : ℤ × ℤ) : ℚ :=
  let i := cd.index
  let bb := cd.bounding_box
  let t := frames.getD f 0
  σ (W.entry i t) * σ (H.entry i (flatIdx bb.shape p)) +
    σ (B.entry i (flatIdx bb.shape p)) +
  (cd.overlapping_components.map (fun jc =>
    let q : ℤ × ℤ := (bb.offset.1 + p.1, bb.offset.2 + p.2)
    let lo : ℤ × ℤ := (max bb.offset.1 jc.2.offset.1, max bb.offset.2 jc.2.offset.2)
    let hi : ℤ × ℤ :=
      (min (bb.offset.1 + bb.shape.1) (jc.2.offset.1 + jc.2.shape.1),
       min (bb.offset.2 + bb.shape.2) (jc.2.offset.2 + jc.2.shape.2))
    if lo.1 ≤ q.1 ∧ q.1 < hi.1 ∧ lo.2 ≤ q.2 ∧ q.2 < hi.2 then
      σ (W.entry jc.1 t) *
        σ (H.entry jc.1 (flatIdx bb.shape (q.1 - jc.2.offset.1, q.2 - jc.2.offset.2))) +
      σ (B.entry jc.1 (flatIdx bb.shape (q.1 - jc.2.offset.1, q.2 - jc.2.offset.2)))
    else 0)).sum

/-- The reconstruction that §4.4 of the spec describes, for comparison with
`get_x_hat`: identical except that the neighbor's contribution is read off
the neighbor's own spatial layout, i.e. the flat index of the
neighbor-local coordinates is computed with the NEIGHBOR's box shape
`bb_j.shape` ("translate it into local offsets within `bb_{c'}` … compute
`c'`'s own contribution restricted to its local intersection slice"). -/
def get_x_hat_spec (σ : ℚ → ℚ) (H W B : NDArr) (cd : ComponentDescription)
    (frames : List ℕ) (f : ℕ) (p : ℤ × ℤ) : ℚ :=
  let i := cd.index
  let bb := cd.bounding_box
  let t := frames.getD f 0
  σ (W.entry i t) * σ (H.entry i (flatIdx bb.shape p)) +
    σ (B.entry i (flatIdx bb.shape p)) +
  (cd.overlapping_components.map (fun jc =>
    let q : ℤ × ℤ := (bb.offset.1 + p.1, bb.offset.2 + p.2)
    let lo : ℤ × ℤ := (max bb.offset.1 jc.2.offset.1, max bb.offset.2 jc.2.offset.2)
    let hi : ℤ × ℤ :=
      (min (bb.offset.1 + bb.shape.1) (jc.2.offset.1 + jc.2.shape.1),
       min (bb.offset.2 + bb.shape.2) (jc.2.offset.2 + jc.2.shape.2))
    if lo.1 ≤ q.1 ∧ q.1 < hi.1 ∧ lo.2 ≤ q.2 ∧ q.2 < hi.2 then
      σ (W.entry jc.1 t) *
        σ (H.entry jc.1 (flatIdx jc.2.shape (q.1 - jc.2.offset.1, q.2 - jc.2.offset.2))) +
      σ (B.entry jc.1 (flatIdx jc.2.shape (q.1 - jc.2.offset.1, q.2 - jc.2.offset.2)))
    else 0)).sum

/-- The `ShapeError` of the spec's error taxonomy: `H`, `W`, or `B` is not exactly
2-dimensional.  (The code enforces this with `assert len(X.shape) == 2`;
the spec's error taxonomy names the failure `ShapeError`.) -/
inductive ShapeError where
  | shapeError
deriving DecidableEq, Repr

/-- The squared L2 residual of `l2_loss`:
`jnp.linalg.norm(x - x_hat)` is the Frobenius norm of the
`(batch, *bb.shape)` residual array, i.e. the square root of this sum of
squared entrywise differences.  The square root (noncomputable over ℝ) is
applied in the statements. -/
def l2sq_term (σ : ℚ → ℚ) (H W B : NDArr) (x : ℕ → ℤ × ℤ → ℚ)
    (cd : ComponentDescription) (frames : List ℕ) : ℚ :=
  ∑ f ∈ Finset.range frames.length,
    ∑ a ∈ Finset.range cd.bounding_box.shape.1.toNat,
      ∑ b ∈ Finset.range cd.bounding_box.shape.2.toNat,
        (x f ((a : ℤ), (b : ℤ)) -
          get_x_hat σ H W B cd frames f ((a : ℤ), (b : ℤ))) ^ 2

/-- Model of the numpy `ord=1` norm of a 2-D array: the maximum over columns of the
column's absolute sum (0 for an empty matrix). -/
def l1_matrix_norm (s1 s2 : ℕ) (f : ℕ → ℕ → ℚ) : ℚ :=
  ((List.range s2).map (fun b => ∑ a ∈ Finset.range s1, |f a b|)).foldr max 0

/-- The L1 diagnostic term of `l2_loss`: active only when both reference
arrays are supplied, in which case it is the `ord=1` norm of
`components[i] - σ(H[i]).reshape(bb_i.shape)` (a 2-D array, so the matrix
1-norm) plus the `ord=1` norm of the 1-D vector
`traces[i, frames] - σ(W[i, frames])` (a sum of absolute values). -/
def l1_term (σ : ℚ → ℚ) (H W : NDArr) (cd : ComponentDescription)
    (frames : List ℕ) (components : Option (ℕ → ℕ → ℕ → ℚ))
    (traces : Option (ℕ → ℕ → ℚ)) : ℚ :=
  match components, traces with
  | some comps, some trs =>
      l1_matrix_norm cd.bounding_box.shape.1.toNat cd.bounding_box.shape.2.toNat
        (fun a b => comps cd.index a b -
          σ (H.entry cd.index (flatIdx cd.bounding_box.shape ((a : ℤ), (b : ℤ))))) +
      ∑ f ∈ Finset.range frames.length,
        |trs cd.index (frames.getD f 0) - σ (W.entry cd.index (frames.getD f 0))|
  | _, _ => 0

/-- Model of `loss.l2_loss`: validate that `H`, `W`, `B` are exactly 2-dimensional
(the leading `assert len(X.shape) == 2` statements, run before any
computation), then compute the reconstruction residual and the optional L1
diagnostic.  The returned pair is `(squared L2 residual, L1 term)`; the
scalar loss of the Python function is
`sqrt(first) + l1_weight * second`, which the theorems state via
`Real.sqrt`.  `l1_weight` itself does not affect the computed pair. -/
def l2_loss (σ : ℚ → ℚ) (H W B : NDArr) (x : ℕ → ℤ × ℤ → ℚ)
    (cd : ComponentDescription) (frames : List ℕ) (l1_weight : ℚ)
    (components : Option (ℕ → ℕ → ℕ → ℚ)) (traces : Option (ℕ → ℕ → ℚ)) :
    Except ShapeError (ℚ × ℚ) :=
  if H.shape.length = 2 ∧ W.shape.length = 2 ∧ B.shape.length = 2 then
    Except.ok (l2sq_term σ H W B x cd frames, l1_term σ H W cd frames components traces)
  else Except.error ShapeError.shapeError

/-- Concrete logits for the C3 evaluation: `H[i, k] = 10 i + k`. -/
def H3 : NDArr := ⟨[2, 6], fun i k => ((10 * i + k : ℕ) : ℚ)⟩

/-- Concrete activity logits (all zero) for the C3 evaluation. -/
def W3 : NDArr := ⟨[2, 1], fun _ _ => 0⟩

/-- Concrete background logits (all zero) for the C3 evaluation. -/
def B3 : NDArr := ⟨[2, 6], fun _ _ => 0⟩

/-- Target component `0` with box `[0,2)×[0,3)` and one overlapping
neighbor `1` with the differently-shaped box `[0,3)×[-1,1)` (both boxes
flatten to 6 entries, so `H` rows have a single valid length). -/
def cd3 : ComponentDescription := ⟨0, ⟨(0, 0), (2, 3)⟩, [(1, ⟨(0, -1), (3, 2)⟩)]⟩

/-- C3: at the failing input `cd3` (neighbor box shaped `(3,2)` against the
target's `(2,3)`), evaluated at local position `(1,0)` of the target (an
absolute position inside the geometric intersection, with every index
access in bounds), the code reads the neighbor's logits at flat index
`flatIdx (2,3) (1,1) = 4` — the neighbor-local coordinates flattened with
the TARGET's shape, due to `H_logits.reshape(-1, *bb_i.shape)` in the
neighbor loop — whereas the spec's formula reads flat index
`flatIdx (3,2) (1,1) = 3`; with distinct `H` entries the reconstructed
values differ. -/
theorem get_x_hat_uses_target_shape_for_neighbor :
    flatIdx (2, 3) (1, 1) = 4 ∧ flatIdx (3, 2) (1, 1) = 3 ∧
    get_x_hat ratSigmoid H3 W3 B3 cd3 [0] 0 (1, 0) ≠
      get_x_hat_spec ratSigmoid H3 W3 B3 cd3 [0] 0 (1, 0) := by
  refine ⟨by decide, by decide, ?_⟩
  norm_num [get_x_hat, get_x_hat_spec, H3, W3, B3, cd3, ratSigmoid, flatIdx,
    show ((3 : ℤ)).toNat = 3 from rfl, show ((4 : ℤ)).toNat = 4 from rfl]

/-- C6: whenever `H`, `W`, or `B` is not exactly 2-dimensional, `l2_loss`
fails with a `ShapeError` — the validation precedes all computation (the
result is the error regardless of every other argument). -/
theorem l2_loss_shape_error (σ : ℚ → ℚ) (H W B : NDArr) (x : ℕ → ℤ × ℤ → ℚ)
    (cd : ComponentDescription) (frames : List ℕ) (w : ℚ)
    (components : Option (ℕ → ℕ → ℕ → ℚ)) (traces : Option (ℕ → ℕ → ℚ))
    (h : H.shape.length ≠ 2 ∨ W.shape.length ≠ 2 ∨ B.shape.length ≠ 2) :
    l2_loss σ H W B x cd frames w components traces =
      Except.error ShapeError.shapeError := by
  unfold l2_loss
  rw [if_neg]
  tauto

/-- Witness for `l2_loss_shape_error`: a 1-dimensional `H`. -/
theorem l2_loss_shape_error_witness :
    l2_loss ratSigmoid ⟨[6], fun _ _ => 0⟩ ⟨[2, 1], fun _ _ => 0⟩
      ⟨[2, 6], fun _ _ => 0⟩ (fun _ _ => 0) ⟨0, ⟨(0, 0), (2, 3)⟩, []⟩ [0] 1
      none none = Except.error ShapeError.shapeError :=
  l2_loss_shape_error ratSigmoid _ _ _ _ _ _ _ _ _ (Or.inl (by decide))

/-- If either reference array is absent, the L1 term is zero. -/
lemma l1_term_zero_of_missing (σ : ℚ → ℚ) (H W : NDArr)
    (cd : ComponentDescription) (frames : List ℕ)
    (components : Option (ℕ → ℕ → ℕ → ℚ)) (traces : Option (ℕ → ℕ → ℚ))
    (h : components = none ∨ traces = none) :
    l1_term σ H W cd frames components traces = 0 := by
  rcases h with rfl | rfl
  · cases traces <;> rfl
  · cases components <;> rfl

/-- Concrete all-zero arrays and an isolated component description for
witnesses. -/
def zeroArr26 : NDArr := ⟨[2, 6], fun _ _ => 0⟩

/-- All-zero `(2, 1)` logits array for witnesses. -/
def zeroArr21 : NDArr := ⟨[2, 1], fun _ _ => 0⟩

/-- Component `0` with box `[0,2)×[0,3)` and no overlapping neighbors. -/
def cdIso : ComponentDescription := ⟨0, ⟨(0, 0), (2, 3)⟩, []⟩

/-- C10: when exactly one of `components` and `traces` is `None`, the L1
branch of `l2_loss` is skipped: the L1 term of the result is `0`, and the
scalar loss `sqrt(l2sq) + l1_weight·l1` reduces to the L2 term alone. -/
theorem l2_loss_l1_inactive_if_one_reference_missing
    (σ : ℚ → ℚ) (H W B : NDArr) (x : ℕ → ℤ × ℤ → ℚ) (cd : ComponentDescription)
    (frames : List ℕ) (w : ℚ) (components : Option (ℕ → ℕ → ℕ → ℚ))
    (traces : Option (ℕ → ℕ → ℚ))
    (hH : H.shape.length = 2) (hW : W.shape.length = 2) (hB : B.shape.length = 2)
    (h : (components = none ∧ traces ≠ none) ∨
      (components ≠ none ∧ traces = none)) :
    l2_loss σ H W B x cd frames w components traces =
      Except.ok (l2sq_term σ H W B x cd frames, 0) ∧
    Real.sqrt ((l2sq_term σ H W B x cd frames : ℚ) : ℝ) + (w : ℝ) * ((0 : ℚ) : ℝ) =
      Real.sqrt ((l2sq_term σ H W B x cd frames : ℚ) : ℝ) := by
  have h0 : l1_term σ H W cd frames components traces = 0 :=
    l1_term_zero_of_missing _ _ _ _ _ _ _ (by tauto)
  constructor
  · unfold l2_loss
    rw [if_pos ⟨hH, hW, hB⟩, h0]
  · norm_num

/-- Witness for `l2_loss_l1_inactive_if_one_reference_missing`:
`components = none`, `traces` supplied. -/
theorem l2_loss_l1_inactive_if_one_reference_missing_witness :
    l2_loss ratSigmoid zeroArr26 zeroArr21 zeroArr26 (fun _ _ => 0) cdIso [0] 1
      none (some (fun _ _ => 0)) =
      Except.ok (l2sq_term ratSigmoid zeroArr26 zeroArr21 zeroArr26
        (fun _ _ => 0) cdIso [0], 0) ∧
    Real.sqrt ((l2sq_term ratSigmoid zeroArr26 zeroArr21 zeroArr26
        (fun _ _ => 0) cdIso [0] : ℚ) : ℝ) + ((1 : ℚ) : ℝ) * ((0 : ℚ) : ℝ) =
      Real.sqrt ((l2sq_term ratSigmoid zeroArr26 zeroArr21 zeroArr26
        (fun _ _ => 0) cdIso [0] : ℚ) : ℝ) :=
  l2_loss_l1_inactive_if_one_reference_missing ratSigmoid zeroArr26 zeroArr21
    zeroArr26 (fun _ _ => 0) cdIso [0] 1 none (some (fun _ _ => 0))
    rfl rfl rfl (Or.inl ⟨rfl, Option.some_ne_none _⟩)

/-- C8: if the observed patch equals the reconstruction exactly, the
(squared) L2 residual is `0` and the scalar loss
`sqrt(l2sq) + l1_weight·l1` reduces to `l1_weight` times the L1 term. -/
theorem l2_loss_zero_when_reconstruction_exact
    (σ : ℚ → ℚ) (H W B : NDArr) (x : ℕ → ℤ × ℤ → ℚ) (cd : ComponentDescription)
    (frames : List ℕ) (w : ℚ) (components : Option (ℕ → ℕ → ℕ → ℚ))
    (traces : Option (ℕ → ℕ → ℚ))
    (hH : H.shape.length = 2) (hW : W.shape.length = 2) (hB : B.shape.length = 2)
    (hx : ∀ f p, x f p = get_x_hat σ H W B cd frames f p) :
    l2_loss σ H W B x cd frames w components traces =
      Except.ok (0, l1_term σ H W cd frames components traces) ∧
    Real.sqrt ((0 : ℚ) : ℝ) +
        (w : ℝ) * ((l1_term σ H W cd frames components traces : ℚ) : ℝ) =
      (w : ℝ) * ((l1_term σ H W cd frames components traces : ℚ) : ℝ) := by
  have hzero : l2sq_term σ H W B x cd frames = 0 := by
    unfold l2sq_term
    refine Finset.sum_eq_zero fun f _ => Finset.sum_eq_zero fun a _ =>
      Finset.sum_eq_zero fun b _ => ?_
    rw [hx]
    ring
  refine ⟨?_, by norm_num⟩
  unfold l2_loss
  rw [if_pos ⟨hH, hW, hB⟩, hzero]

/-- Witness for `l2_loss_zero_when_reconstruction_exact`: the observed
patch is the reconstruction itself. -/
theorem l2_loss_zero_when_reconstruction_exact_witness :
    l2_loss ratSigmoid zeroArr26 zeroArr21 zeroArr26
      (get_x_hat ratSigmoid zeroArr26 zeroArr21 zeroArr26 cdIso [0]) cdIso [0] 1
      none none =
      Except.ok (0, l1_term ratSigmoid zeroArr26 zeroArr21 cdIso [0] none none) ∧
    Real.sqrt ((0 : ℚ) : ℝ) +
        ((1 : ℚ) : ℝ) *
          ((l1_term ratSigmoid zeroArr26 zeroArr21 cdIso [0] none none : ℚ) : ℝ) =
      ((1 : ℚ) : ℝ) *
        ((l1_term ratSigmoid zeroArr26 zeroArr21 cdIso [0] none none : ℚ) : ℝ) :=
  l2_loss_zero_when_reconstruction_exact ratSigmoid zeroArr26 zeroArr21 zeroArr26
    (get_x_hat ratSigmoid zeroArr26 zeroArr21 zeroArr26 cdIso [0]) cdIso [0] 1
    none none rfl rfl rfl (fun _ _ => rfl)

/-- C7, counterexample: source construction from a zero-extent bounding box
succeeds and stores the degenerate box unchanged — no
`DegenerateRegionError` (or any validation) exists in `Component.__init__`
or `construct_components`. -/
theorem construct_components_accepts_degenerate_box :
    construct_components [⟨(0, 0), (0, 0)⟩] = [⟨⟨(0, 0), (0, 0)⟩, 0, []⟩] := by decide

/-- C7, amended: source construction never fails and performs no geometry
validation: for every input list — including zero- or negative-extent
boxes — it returns exactly one component per box, storing each bounding box
unchanged with its input position as the index. -/
theorem construct_components_never_fails (bbs : List Roi) :
    (construct_components bbs).length = bbs.length ∧
    ∀ k, k < bbs.length →
      (construct_components bbs).getD k ⟨⟨(0, 0), (0, 0)⟩, 0, []⟩ =
        ⟨bbs.getD k ⟨(0, 0), (0, 0)⟩, k, []⟩ := by
  constructor
  · simp [construct_components]
  · intro k hk
    have hlen : k < (construct_components bbs).length := by
      simpa [construct_components] using hk
    rw [List.getD_eq_getElem _ _ hlen]
    simp [construct_components]

/-- Witness for `construct_components_never_fails` at a negative-extent
box. -/
theorem construct_components_never_fails_witness :
    (construct_components [⟨(0, 0), (3, -2)⟩]).length = 1 ∧
    (construct_components [⟨(0, 0), (3, -2)⟩]).getD 0 ⟨⟨(0, 0), (0, 0)⟩, 0, []⟩ =
      ⟨⟨(0, 0), (3, -2)⟩, 0, []⟩ :=
  ⟨(construct_components_never_fails [⟨(0, 0), (3, -2)⟩]).1,
   (construct_components_never_fails [⟨(0, 0), (3, -2)⟩]).2 0 (by decide)⟩
